import Mathlib

/-!
Verification of the coroutine-based frame-parsing example
(`02.24-coroutineParsingDataStreamCustomAllocator0/main.cpp`).

The C++ `Parse` coroutine awaits one byte per `co_await`; its four
suspension points are exactly the four states of the finite-state
machine below:

* `idle`         — top of the outer loop, before any escape was seen;
* `sawEsc`       — right after `ESC` was read from `idle`;
* `inFrame buf`  — top of the inner frame-capture loop, with `buf` the
                   accumulated `frame` string;
* `inFrameEsc buf` — right after `ESC` was read inside a frame.

Bytes are modelled as natural numbers (the program only compares them
for equality; every concrete byte value is below 256).
-/

namespace FrameCoro

abbrev Byte := Nat

/-- The four suspension points of the `Parse` coroutine, with the
accumulated `frame` buffer attached to the in-frame states. -/
inductive PState where
  | idle : PState
  | sawEsc : PState
  | inFrame (buf : List Byte) : PState
  | inFrameEsc (buf : List Byte) : PState
  deriving Repr, DecidableEq

/-- One step of the `Parse` coroutine: consume one byte, move to the
next suspension point, optionally yield a completed frame.

Faithful to `main.cpp` lines 223-257:
* `idle`: `if(ESC == b)` enter the escape lookahead, else loop and
  discard;
* `sawEsc`: `if(SOF != b) continue;` (back to `idle`), else enter the
  inner loop with a fresh empty `frame`;
* `inFrame`: `if(ESC == b)` lookahead, else `frame += b`;
* `inFrameEsc`: `if(SOF == b) co_yield frame; break;` then
  `else if(ESC != b) break;` (out of sync, drop everything), else fall
  through to `frame += b` where `b` is the second `ESC`. -/
def parseStep (esc sof : Byte) : PState → Byte → PState × Option (List Byte)
  | .idle, b => if b = esc then (.sawEsc, none) else (.idle, none)
  | .sawEsc, b => if b = sof then (.inFrame [], none) else (.idle, none)
  | .inFrame buf, b =>
      if b = esc then (.inFrameEsc buf, none) else (.inFrame (buf ++ [b]), none)
  | .inFrameEsc buf, b =>
      if b = sof then (.idle, some buf)
      else if b = esc then (.inFrame (buf ++ [esc]), none)
      else (.idle, none)

/-- Run the parser over a byte sequence, collecting the final state and
the list of yielded frames in order. -/
def run (esc sof : Byte) : PState → List Byte → PState × List (List Byte)
  | s, [] => (s, [])
  | s, b :: bs =>
      let so := parseStep esc sof s b
      let r := run esc sof so.1 bs
      (r.1, so.2.toList ++ r.2)

/-- `static const byte ESC{'H'};` in the source: the ASCII code of H. -/
def ESC : Byte := 72

/-- `static const byte SOF{0x10};` in the source. -/
def SOF : Byte := 16

/-- The parser the program actually constructs: `Parse` refers to the
file-scope constants `ESC` and `SOF`; its only parameter is the stream. -/
def Parse (s : PState) (input : List Byte) : PState × List (List Byte) :=
  run ESC SOF s input

/-! ### The channel (`DataStreamReader`) -/

/-- The mutable state of `DataStreamReader`: the single-byte slot
`mData` and whether an `Awaiter` is registered (`mAwaiter` non-null).
The `Option Byte` slot holds at most one byte: the capacity is one. -/
structure DataStreamReader where
  mData : Option Byte
  mAwaiter : Bool
  deriving Repr, DecidableEq

/-- `DataStreamReader::set`: `mData.emplace(b); if(mAwaiter) resume();`.
Returns the updated channel and whether a resumption was triggered. -/
def DataStreamReader.set (c : DataStreamReader) (b : Byte) :
    DataStreamReader × Bool :=
  ({ c with mData := some b }, c.mAwaiter)

/-- `Awaiter::await_ready`: `return mEvent.mData.has_value();`. -/
def awaitReady (mData : Option Byte) : Bool :=
  mData.isSome

/-- `Awaiter::await_resume`: `assert(mEvent.mData.has_value());
return *std::exchange(mEvent.mData, std::nullopt);`.  The result is the
pending byte paired with the cleared slot; `none` models the assertion
firing on an empty slot. -/
def awaitResume (mData : Option Byte) : Option (Byte × Option Byte) :=
  match mData with
  | some b => some (b, none)
  | none => none

/-- One `set` call with the parser suspended and awaiting: `set`
stores the byte into `mData` first and only then resumes the awaiter,
whose `await_resume` reads the slot, clears it, and hands the byte to
one `parseStep` of the suspended `Parse` coroutine.  The result is
`none` exactly when the `await_resume` assertion would fire. -/
def sysPush (esc sof : Byte) (ps : PState) (b : Byte) :
    Option (PState × Option Byte × Option (List Byte)) :=
  match awaitResume (some b) with
  | none => none
  | some (b', mData') =>
      some ((parseStep esc sof ps b').1, mData', (parseStep esc sof ps b').2)

/-! ### The generator value slot and the driver loop -/

/-- `generator<std::string, false>::operator()`: `T tmp{};
std::swap(tmp, mCoroHdl.promise().mValue); return tmp;` — return the
current slot and leave the default (empty) value behind.  Strings are
byte lists; the default-constructed string is `[]`. -/
def generatorExtract (mValue : List Byte) : List Byte × List Byte :=
  (mValue, [])

/-- Driver-visible state: the parser's suspension point and the
generator's value slot `mValue` (written by `co_yield`). -/
structure DriverState where
  ps : PState
  mValue : List Byte
  deriving Repr, DecidableEq

/-- One iteration of the driver loop in `main`: `dr.set(b);` advances
the suspended parser by one byte (a `co_yield` overwrites `mValue`),
then `if(const auto& res = p(); res.length()) HandleFrame(res);`
extracts the slot and delivers it only when it is non-empty. -/
def driveByte (esc sof : Byte) (st : DriverState) (b : Byte) :
    DriverState × List (List Byte) :=
  let so := parseStep esc sof st.ps b
  let slot :=
    match so.2 with
    | some f => f
    | none => st.mValue
  let res := (generatorExtract slot).1
  (⟨so.1, (generatorExtract slot).2⟩, if res = [] then [] else [res])

/-- The driver loop over a whole byte vector, collecting every frame
handed to `HandleFrame`. -/
def driveRun (esc sof : Byte) : DriverState → List Byte →
    DriverState × List (List Byte)
  | st, [] => (st, [])
  | st, b :: bs =>
      let r := driveByte esc sof st b
      let r' := driveRun esc sof r.1 bs
      (r'.1, r.2 ++ r'.2)

/-! ### The allocation hook and the generator handle -/

/-- `Allocate(size_t) noexcept`: logs and returns `new char[sz]`.
The raw heap is modelled as an oracle `heap`; `some addr` is the
address the throwing `new` returns on success (it never returns null),
and `none` is heap exhaustion: `new` throws `bad_alloc`, the exception
hits the `noexcept` barrier of `Allocate`, and the process terminates.
So `Allocate heap sz = none` means `Allocate` never returns at all —
it does not mean a null pointer was handed to the caller. -/
def Allocate (heap : Nat → Option Nat) (sz : Nat) : Option Nat :=
  heap sz

/-- A generator handle: `mCoroHdl` is `none` when it holds the null
coroutine handle. -/
structure GenHandle where
  mCoroHdl : Option Nat
  deriving Repr, DecidableEq

/-- `promise_type_base::get_return_object_on_allocation_failure`:
`return G{nullptr};` — the designated invalid sentinel handle. -/
def get_return_object_on_allocation_failure : GenHandle :=
  ⟨none⟩

/-- A handle is valid exactly when its coroutine handle is non-null;
this is the `if(mCoroHdl)` check a caller can perform. -/
def GenHandle.valid (g : GenHandle) : Bool :=
  g.mCoroHdl.isSome

/-- Generator construction through the promise's custom `operator new`.
The coroutine machinery substitutes
`get_return_object_on_allocation_failure` only when `operator new`
returns a null pointer; the throwing `new` inside `Allocate` never
returns null, so when `Allocate` returns at all (`some p`) the null
check cannot fire and the handle wraps the allocated state, while on
exhaustion the process has already terminated inside `Allocate`
(outer `none`: construction never completes, no handle of any kind is
produced). -/
def makeGenerator (heap : Nat → Option Nat) (sz : Nat) : Option GenHandle :=
  match Allocate heap sz with
  | none => none
  | some p => some ⟨some p⟩

/-! ### The byte vectors of `main` -/

/-- `fakeBytes1` from `main`: `0x70, H, 0x10, H, H, e, l, l, o, H,
0x10, 0x07, H, 0x10` as numeric byte values. -/
def fakeBytes1 : List Byte :=
  [112, 72, 16, 72, 72, 101, 108, 108, 111, 72, 16, 7, 72, 16]

/-- `fakeBytes2` from `main`: `W, o, r, l, d, H, 0x10, 0x99`. -/
def fakeBytes2 : List Byte :=
  [87, 111, 114, 108, 100, 72, 16, 153]

/-- The byte values of the string Hello. -/
def helloBytes : List Byte := [72, 101, 108, 108, 111]

/-- The byte values of the string World. -/
def worldBytes : List Byte := [87, 111, 114, 108, 100]

/-! ### Projections of `run` and basic rewriting lemmas -/

/-- The state the parser is left in after consuming `input`. -/
def runSt (esc sof : Byte) (s : PState) (input : List Byte) : PState :=
  (run esc sof s input).1

/-- The frames the parser yields while consuming `input`, in order. -/
def runFr (esc sof : Byte) (s : PState) (input : List Byte) : List (List Byte) :=
  (run esc sof s input).2

theorem run_eta (esc sof : Byte) (s : PState) (input : List Byte) :
    run esc sof s input = (runSt esc sof s input, runFr esc sof s input) := rfl

theorem runFr_nil (esc sof : Byte) (s : PState) : runFr esc sof s [] = [] := rfl

theorem runSt_nil (esc sof : Byte) (s : PState) : runSt esc sof s [] = s := rfl

theorem runFr_cons_none {esc sof : Byte} {s s' : PState} {b : Byte}
    (h : parseStep esc sof s b = (s', none)) (bs : List Byte) :
    runFr esc sof s (b :: bs) = runFr esc sof s' bs := by
  simp [runFr, run, h]

theorem runSt_cons_none {esc sof : Byte} {s s' : PState} {b : Byte}
    (h : parseStep esc sof s b = (s', none)) (bs : List Byte) :
    runSt esc sof s (b :: bs) = runSt esc sof s' bs := by
  simp [runSt, run, h]

theorem runFr_cons_some {esc sof : Byte} {s s' : PState} {b : Byte} {f : List Byte}
    (h : parseStep esc sof s b = (s', some f)) (bs : List Byte) :
    runFr esc sof s (b :: bs) = f :: runFr esc sof s' bs := by
  simp [runFr, run, h]

theorem runSt_cons_some {esc sof : Byte} {s s' : PState} {b : Byte} {f : List Byte}
    (h : parseStep esc sof s b = (s', some f)) (bs : List Byte) :
    runSt esc sof s (b :: bs) = runSt esc sof s' bs := by
  simp [runSt, run, h]

theorem runFr_append (esc sof : Byte) (xs ys : List Byte) (s : PState) :
    runFr esc sof s (xs ++ ys) =
      runFr esc sof s xs ++ runFr esc sof (runSt esc sof s xs) ys := by
  induction xs generalizing s with
  | nil => simp [runFr_nil, runSt_nil]
  | cons b bs ih => simp [runFr, runSt, run] at ih ⊢; simp [ih]

theorem runSt_append (esc sof : Byte) (xs ys : List Byte) (s : PState) :
    runSt esc sof s (xs ++ ys) = runSt esc sof (runSt esc sof s xs) ys := by
  induction xs generalizing s with
  | nil => simp [runSt_nil]
  | cons b bs ih => simp [runSt, run] at ih ⊢; simp [ih]

/-! ### One lemma per transition of the state machine -/

theorem step_idle_esc (esc sof : Byte) :
    parseStep esc sof .idle esc = (.sawEsc, none) := by
  simp [parseStep]

theorem step_idle_other {esc : Byte} (sof : Byte) {b : Byte} (h : b ≠ esc) :
    parseStep esc sof .idle b = (.idle, none) := by
  simp [parseStep, h]

theorem step_sawEsc_sof (esc sof : Byte) :
    parseStep esc sof .sawEsc sof = (.inFrame [], none) := by
  simp [parseStep]

theorem step_sawEsc_other (esc : Byte) {sof b : Byte} (h : b ≠ sof) :
    parseStep esc sof .sawEsc b = (.idle, none) := by
  simp [parseStep, h]

theorem step_inFrame_esc (esc sof : Byte) (buf : List Byte) :
    parseStep esc sof (.inFrame buf) esc = (.inFrameEsc buf, none) := by
  simp [parseStep]

theorem step_inFrame_other (sof : Byte) (buf : List Byte) {esc b : Byte} (h : b ≠ esc) :
    parseStep esc sof (.inFrame buf) b = (.inFrame (buf ++ [b]), none) := by
  simp [parseStep, h]

theorem step_inFrameEsc_sof (esc sof : Byte) (buf : List Byte) :
    parseStep esc sof (.inFrameEsc buf) sof = (.idle, some buf) := by
  simp [parseStep]

theorem step_inFrameEsc_esc (buf : List Byte) {esc sof : Byte} (h : esc ≠ sof) :
    parseStep esc sof (.inFrameEsc buf) esc = (.inFrame (buf ++ [esc]), none) := by
  simp [parseStep, h]

theorem step_inFrameEsc_other (buf : List Byte) {esc sof b : Byte}
    (h1 : b ≠ sof) (h2 : b ≠ esc) :
    parseStep esc sof (.inFrameEsc buf) b = (.idle, none) := by
  simp [parseStep, h1, h2]

/-! ### Well-formed frame bodies

`EncBody esc body content` says the byte sequence `body` is a
well-formed in-frame encoding of the decoded bytes `content`: a
concatenation of ordinary non-ESCAPE bytes and ESCAPE+ESCAPE pairs
(each decoding to one literal ESCAPE byte), with no frame boundary and
no aborting ESCAPE+other pair inside. -/

inductive EncBody (esc : Byte) : List Byte → List Byte → Prop where
  | nil : EncBody esc [] []
  | lit {b : Byte} {bs cs : List Byte} (hb : b ≠ esc) (h : EncBody esc bs cs) :
      EncBody esc (b :: bs) (b :: cs)
  | escLit {bs cs : List Byte} (h : EncBody esc bs cs) :
      EncBody esc (esc :: esc :: bs) (esc :: cs)

/-- The encoder of the round-trip property: each literal ESCAPE byte is
written as ESCAPE+ESCAPE, every other byte as-is. -/
def encodeBody (esc : Byte) : List Byte → List Byte
  | [] => []
  | b :: bs =>
      if b = esc then esc :: esc :: encodeBody esc bs else b :: encodeBody esc bs

/-- A whole encoded frame: start pair, encoded body, end pair. -/
def encodeFrame (esc sof : Byte) (content : List Byte) : List Byte :=
  esc :: sof :: (encodeBody esc content ++ esc :: sof :: [])

theorem encodeBody_encBody (esc : Byte) (content : List Byte) :
    EncBody esc (encodeBody esc content) content := by
  induction content with
  | nil => exact .nil
  | cons b bs ih =>
    by_cases hb : b = esc
    · subst hb
      simpa [encodeBody] using EncBody.escLit ih
    · simpa [encodeBody, hb] using EncBody.lit hb ih

/-! ### Running the machine over a well-formed body and over whole frames -/

theorem encBody_runFr {esc sof : Byte} (hne : esc ≠ sof) :
    ∀ {body content : List Byte}, EncBody esc body content →
    ∀ (cs tail : List Byte),
      runFr esc sof (.inFrame cs) (body ++ tail) =
        runFr esc sof (.inFrame (cs ++ content)) tail := by
  intro body content h
  induction h with
  | nil => intro cs tail; simp
  | lit hb h ih =>
    intro cs tail
    rw [List.cons_append, runFr_cons_none (step_inFrame_other sof cs hb), ih]
    simp
  | escLit h ih =>
    intro cs tail
    rw [List.cons_append, List.cons_append,
      runFr_cons_none (step_inFrame_esc esc sof cs),
      runFr_cons_none (step_inFrameEsc_esc cs hne), ih]
    simp

theorem encBody_runSt {esc sof : Byte} (hne : esc ≠ sof) :
    ∀ {body content : List Byte}, EncBody esc body content →
    ∀ (cs tail : List Byte),
      runSt esc sof (.inFrame cs) (body ++ tail) =
        runSt esc sof (.inFrame (cs ++ content)) tail := by
  intro body content h
  induction h with
  | nil => intro cs tail; simp
  | lit hb h ih =>
    intro cs tail
    rw [List.cons_append, runSt_cons_none (step_inFrame_other sof cs hb), ih]
    simp
  | escLit h ih =>
    intro cs tail
    rw [List.cons_append, List.cons_append,
      runSt_cons_none (step_inFrame_esc esc sof cs),
      runSt_cons_none (step_inFrameEsc_esc cs hne), ih]
    simp

theorem frame_segment_runFr {esc sof : Byte} (hne : esc ≠ sof)
    {body content : List Byte} (henc : EncBody esc body content) (tail : List Byte) :
    runFr esc sof .idle (esc :: sof :: (body ++ esc :: sof :: tail)) =
      content :: runFr esc sof .idle tail := by
  rw [runFr_cons_none (step_idle_esc esc sof),
    runFr_cons_none (step_sawEsc_sof esc sof), encBody_runFr hne henc]
  simp only [List.nil_append]
  rw [runFr_cons_none (step_inFrame_esc esc sof content),
    runFr_cons_some (step_inFrameEsc_sof esc sof content)]

theorem frame_segment_runSt {esc sof : Byte} (hne : esc ≠ sof)
    {body content : List Byte} (henc : EncBody esc body content) (tail : List Byte) :
    runSt esc sof .idle (esc :: sof :: (body ++ esc :: sof :: tail)) =
      runSt esc sof .idle tail := by
  rw [runSt_cons_none (step_idle_esc esc sof),
    runSt_cons_none (step_sawEsc_sof esc sof), encBody_runSt hne henc]
  simp only [List.nil_append]
  rw [runSt_cons_none (step_inFrame_esc esc sof content),
    runSt_cons_some (step_inFrameEsc_sof esc sof content)]

theorem abort_segment_runFr {esc sof x : Byte} (hne : esc ≠ sof)
    {body content : List Byte} (henc : EncBody esc body content)
    (hxs : x ≠ sof) (hxe : x ≠ esc) (tail : List Byte) :
    runFr esc sof .idle (esc :: sof :: (body ++ esc :: x :: tail)) =
      runFr esc sof .idle tail := by
  rw [runFr_cons_none (step_idle_esc esc sof),
    runFr_cons_none (step_sawEsc_sof esc sof), encBody_runFr hne henc]
  simp only [List.nil_append]
  rw [runFr_cons_none (step_inFrame_esc esc sof content),
    runFr_cons_none (step_inFrameEsc_other content hxs hxe)]

theorem abort_segment_runSt {esc sof x : Byte} (hne : esc ≠ sof)
    {body content : List Byte} (henc : EncBody esc body content)
    (hxs : x ≠ sof) (hxe : x ≠ esc) (tail : List Byte) :
    runSt esc sof .idle (esc :: sof :: (body ++ esc :: x :: tail)) =
      runSt esc sof .idle tail := by
  rw [runSt_cons_none (step_idle_esc esc sof),
    runSt_cons_none (step_sawEsc_sof esc sof), encBody_runSt hne henc]
  simp only [List.nil_append]
  rw [runSt_cons_none (step_inFrame_esc esc sof content),
    runSt_cons_none (step_inFrameEsc_other content hxs hxe)]

/-- Soundness of the frame pattern: a prefix that leaves the parser in
IDLE, a start pair, a well-formed body, an end pair — the decoded
content is yielded right there. -/
theorem emit_sound {esc sof : Byte} (hne : esc ≠ sof) {pre : List Byte}
    (hpre : runSt esc sof .idle pre = .idle) {body content : List Byte}
    (henc : EncBody esc body content) (post : List Byte) :
    runFr esc sof .idle (pre ++ esc :: sof :: (body ++ esc :: sof :: post)) =
      runFr esc sof .idle pre ++ content :: runFr esc sof .idle post := by
  rw [runFr_append, hpre, frame_segment_runFr hne henc]

/-- The whole encoded frame decodes in one pass back to its content. -/
theorem encodeFrame_run {esc sof : Byte} (hne : esc ≠ sof) (content : List Byte) :
    run esc sof .idle (encodeFrame esc sof content) = (.idle, [content]) := by
  have henc := encodeBody_encBody esc content
  have h1 : runFr esc sof .idle (encodeFrame esc sof content) = [content] := by
    rw [encodeFrame, frame_segment_runFr hne henc, runFr_nil]
  have h2 : runSt esc sof .idle (encodeFrame esc sof content) = .idle := by
    rw [encodeFrame, frame_segment_runSt hne henc, runSt_nil]
  rw [run_eta, h1, h2]

/-! ### Completeness: whenever a frame is yielded, the input decomposes
into the frame pattern -/

/-- Completeness from inside a frame: if any frame is ever yielded, the
input starts with a well-formed body followed by an escape whose
lookahead either ends this frame or aborts it with a later emission
happening from IDLE. -/
theorem emit_inFrame {esc sof : Byte} (hne : esc ≠ sof) :
    ∀ (n : Nat) (input cs : List Byte), input.length ≤ n →
      runFr esc sof (.inFrame cs) input ≠ [] →
      ∃ body content rest, input = body ++ esc :: rest ∧ EncBody esc body content ∧
        ((∃ post, rest = sof :: post) ∨
         (∃ x post, rest = x :: post ∧ x ≠ sof ∧ x ≠ esc ∧
           runFr esc sof .idle post ≠ [])) := by
  intro n
  induction n with
  | zero =>
    intro input cs hlen hemit
    have hnil : input = [] := List.eq_nil_of_length_eq_zero (Nat.le_zero.mp hlen)
    subst hnil
    simp [runFr_nil] at hemit
  | succ n ih =>
    intro input cs hlen hemit
    cases input with
    | nil => simp [runFr_nil] at hemit
    | cons b bs =>
      by_cases hb : esc = b
      · subst hb
        rw [runFr_cons_none (step_inFrame_esc esc sof cs)] at hemit
        cases bs with
        | nil => simp [runFr_nil] at hemit
        | cons c bs' =>
          by_cases hc : sof = c
          · subst hc
            exact ⟨[], [], sof :: bs', rfl, .nil, .inl ⟨bs', rfl⟩⟩
          · by_cases hce : esc = c
            · subst hce
              rw [runFr_cons_none (step_inFrameEsc_esc cs hne)] at hemit
              have hlen' : bs'.length ≤ n := by
                simp [List.length_cons] at hlen
                omega
              obtain ⟨body', content', rest', heq, henc, hD⟩ :=
                ih bs' (cs ++ [esc]) hlen' hemit
              exact ⟨esc :: esc :: body', esc :: content', rest',
                by simp [heq], .escLit henc, hD⟩
            · rw [runFr_cons_none
                (step_inFrameEsc_other cs (Ne.symm hc) (Ne.symm hce))] at hemit
              exact ⟨[], [], c :: bs', rfl, .nil,
                .inr ⟨c, bs', rfl, Ne.symm hc, Ne.symm hce, hemit⟩⟩
      · rw [runFr_cons_none (step_inFrame_other sof cs (Ne.symm hb))] at hemit
        have hlen' : bs.length ≤ n := by
          simp [List.length_cons] at hlen
          omega
        obtain ⟨body', content', rest', heq, henc, hD⟩ :=
          ih bs (cs ++ [b]) hlen' hemit
        exact ⟨b :: body', b :: content', rest', by simp [heq],
          .lit (Ne.symm hb) henc, hD⟩

/-- Completeness from IDLE: if any frame is ever yielded, the input
decomposes as a prefix that quietly returns to IDLE, a start pair, a
well-formed body, and an end pair. -/
theorem emit_idle {esc sof : Byte} (hne : esc ≠ sof) :
    ∀ (n : Nat) (input : List Byte), input.length ≤ n →
      runFr esc sof .idle input ≠ [] →
      ∃ pre body post content,
        input = pre ++ esc :: sof :: (body ++ esc :: sof :: post) ∧
        runSt esc sof .idle pre = .idle ∧ runFr esc sof .idle pre = [] ∧
        EncBody esc body content := by
  intro n
  induction n with
  | zero =>
    intro input hlen hemit
    have hnil : input = [] := List.eq_nil_of_length_eq_zero (Nat.le_zero.mp hlen)
    subst hnil
    simp [runFr_nil] at hemit
  | succ n ih =>
    intro input hlen hemit
    cases input with
    | nil => simp [runFr_nil] at hemit
    | cons b bs =>
      by_cases hb : esc = b
      · subst hb
        rw [runFr_cons_none (step_idle_esc esc sof)] at hemit
        cases bs with
        | nil => simp [runFr_nil] at hemit
        | cons c bs' =>
          by_cases hc : sof = c
          · subst hc
            rw [runFr_cons_none (step_sawEsc_sof esc sof)] at hemit
            obtain ⟨body, content, rest, heq, henc, hD⟩ :=
              emit_inFrame hne bs'.length bs' [] le_rfl hemit
            cases hD with
            | inl h =>
              obtain ⟨post, hrest⟩ := h
              subst hrest
              exact ⟨[], body, post, content, by simp [heq], runSt_nil esc sof _,
                runFr_nil esc sof _, henc⟩
            | inr h =>
              obtain ⟨x, post, hrest, hxs, hxe, hpost⟩ := h
              subst hrest
              have hlenp : post.length ≤ n := by
                have hlb := congrArg List.length heq
                simp [List.length_append, List.length_cons] at hlb
                simp [List.length_cons] at hlen
                omega
              obtain ⟨pre', body', post', content', heq', hst', hfr', henc'⟩ :=
                ih post hlenp hpost
              refine ⟨esc :: sof :: (body ++ esc :: x :: pre'), body', post',
                content', ?_, ?_, ?_, henc'⟩
              · subst heq'
                simp [heq]
              · rw [abort_segment_runSt hne henc hxs hxe pre']
                exact hst'
              · rw [abort_segment_runFr hne henc hxs hxe pre']
                exact hfr'
          · rw [runFr_cons_none (step_sawEsc_other esc (Ne.symm hc))] at hemit
            have hlen' : bs'.length ≤ n := by
              simp [List.length_cons] at hlen
              omega
            obtain ⟨pre', body', post', content', heq', hst', hfr', henc'⟩ :=
              ih bs' hlen' hemit
            refine ⟨esc :: c :: pre', body', post', content', by simp [heq'], ?_, ?_, henc'⟩
            · rw [runSt_cons_none (step_idle_esc esc sof),
                runSt_cons_none (step_sawEsc_other esc (Ne.symm hc))]
              exact hst'
            · rw [runFr_cons_none (step_idle_esc esc sof),
                runFr_cons_none (step_sawEsc_other esc (Ne.symm hc))]
              exact hfr'
      · rw [runFr_cons_none (step_idle_other sof (Ne.symm hb))] at hemit
        have hlen' : bs.length ≤ n := by
          simp [List.length_cons] at hlen
          omega
        obtain ⟨pre', body', post', content', heq', hst', hfr', henc'⟩ :=
          ih bs hlen' hemit
        refine ⟨b :: pre', body', post', content', by simp [heq'], ?_, ?_, henc'⟩
        · rw [runSt_cons_none (step_idle_other sof (Ne.symm hb))]
          exact hst'
        · rw [runFr_cons_none (step_idle_other sof (Ne.symm hb))]
          exact hfr'

/-! ### The claims -/

/-- Claim C1: for every byte sequence, a frame is emitted if and only
if the sequence contains, starting from the IDLE state, an
ESCAPE+FRAME-MARKER pair, followed by zero or more content bytes (with
ESCAPE+ESCAPE decoding to one literal ESCAPE byte), terminated by an
ESCAPE+FRAME-MARKER pair, with no intervening ESCAPE+other-byte abort;
and the emitted frame's content is exactly the decoded content bytes
of any such decomposition. -/
theorem parse_emits_iff (input : List Byte) :
    ((Parse .idle input).2 ≠ [] ↔
      ∃ pre body post content,
        input = pre ++ ESC :: SOF :: (body ++ ESC :: SOF :: post) ∧
        Parse .idle pre = (.idle, []) ∧
        EncBody ESC body content) ∧
    (∀ pre body post content,
      input = pre ++ ESC :: SOF :: (body ++ ESC :: SOF :: post) →
      (Parse .idle pre).1 = .idle →
      EncBody ESC body content →
      content ∈ (Parse .idle input).2) := by
  have hne : ESC ≠ SOF := by decide
  constructor
  · constructor
    · intro h
      obtain ⟨pre, body, post, content, heq, hst, hfr, henc⟩ :=
        emit_idle hne input.length input le_rfl h
      refine ⟨pre, body, post, content, heq, ?_, henc⟩
      rw [show Parse .idle pre =
        (runSt ESC SOF .idle pre, runFr ESC SOF .idle pre) from rfl, hst, hfr]
    · rintro ⟨pre, body, post, content, heq, hpre, henc⟩
      subst heq
      have hst : runSt ESC SOF .idle pre = .idle := congrArg Prod.fst hpre
      show runFr ESC SOF .idle
        (pre ++ ESC :: SOF :: (body ++ ESC :: SOF :: post)) ≠ []
      rw [emit_sound hne hst henc post]
      simp
  · intro pre body post content heq hpre henc
    subst heq
    have hst : runSt ESC SOF .idle pre = .idle := hpre
    show content ∈ runFr ESC SOF .idle
      (pre ++ ESC :: SOF :: (body ++ ESC :: SOF :: post))
    rw [emit_sound hne hst henc post]
    simp

/-- Witness for C1 at a concrete input: the five bytes ESC, SOF, e,
ESC, SOF decompose with empty junk and body `e`, and the frame `e` is
among the emitted frames. -/
theorem parse_emits_iff_witness :
    [101] ∈ (Parse .idle [72, 16, 101, 72, 16]).2 :=
  (parse_emits_iff [72, 16, 101, 72, 16]).2 [] [101] [] [101] rfl rfl
    (EncBody.lit (by decide) EncBody.nil)

/-- Claim C2: encode/decode round-trip — for every frame content
containing one or more literal ESCAPE-valued bytes, encoding it as
ESCAPE+FRAME-MARKER, the content with each literal ESCAPE byte written
as ESCAPE+ESCAPE and all other bytes as-is, then ESCAPE+FRAME-MARKER,
and feeding that sequence to the parser from IDLE yields exactly one
emitted frame whose content equals the original bytes, leaving the
parser back in IDLE. -/
theorem escape_roundtrip (content : List Byte) (_h : ESC ∈ content) :
    Parse .idle (encodeFrame ESC SOF content) = (.idle, [content]) :=
  encodeFrame_run (by decide) content

/-- Witness for C2: the content Hello contains the literal ESCAPE byte
value 72 and round-trips exactly. -/
theorem escape_roundtrip_witness :
    ESC ∈ helloBytes ∧
    Parse .idle (encodeFrame ESC SOF helloBytes) = (.idle, [helloBytes]) :=
  ⟨by decide, escape_roundtrip helloBytes (by decide)⟩

/-- Claim C3: end-to-end — feeding `fakeBytes1` to a fresh parser
through the driver loop delivers exactly one frame Hello, discarding
the leading byte 0x70 and the byte 0x07, and leaves the parser
mid-frame (inside a just-started empty frame); feeding `fakeBytes2` to
the same parser then delivers exactly one further frame World with the
trailing 0x99 discarded.  Stated both for the driver loop of `main`
(frames handed to `HandleFrame`) and for the raw parser run. -/
theorem end_to_end_scenarios :
    driveRun ESC SOF ⟨.idle, []⟩ fakeBytes1 = (⟨.inFrame [], []⟩, [helloBytes]) ∧
    driveRun ESC SOF (driveRun ESC SOF ⟨.idle, []⟩ fakeBytes1).1 fakeBytes2 =
      (⟨.idle, []⟩, [worldBytes]) ∧
    run ESC SOF .idle fakeBytes1 = (.inFrame [], [helloBytes]) ∧
    run ESC SOF (run ESC SOF .idle fakeBytes1).1 fakeBytes2 =
      (.idle, [worldBytes]) := by
  refine ⟨by decide, by decide, by decide, by decide⟩

/-- Claim C4: desynchronization is silent — from any in-frame buffer,
ESCAPE followed by a byte that is neither FRAME-MARKER nor ESCAPE
yields no frame, discards the whole buffer and the aborting byte, and
returns the parser to IDLE with no error surfaced (the run is total
and produces the plain result `(idle, no frames)`); in particular the
input ESC, 0x10, a, b, ESC, x emits nothing. -/
theorem desync_silent :
    (∀ (buf : List Byte) (x : Byte), x ≠ SOF → x ≠ ESC →
      run ESC SOF (.inFrame buf) [ESC, x] = (.idle, [])) ∧
    run ESC SOF .idle [72, 16, 97, 98, 72, 120] = (.idle, []) := by
  constructor
  · intro buf x hxs hxe
    have h1 := step_inFrame_esc ESC SOF buf
    have h2 := step_inFrameEsc_other buf hxs hxe
    simp [run, h1, h2]
  · decide

/-- Witness for C4: aborting byte `x` = 120 after the buffered bytes
a, b. -/
theorem desync_silent_witness :
    (120 : Byte) ≠ SOF ∧ (120 : Byte) ≠ ESC ∧
    run ESC SOF (.inFrame [97, 98]) [ESC, 120] = (.idle, []) :=
  ⟨by decide, by decide, desync_silent.1 [97, 98] 120 (by decide) (by decide)⟩

/-- Claim C5: channel overwrite is last-write-wins — with no registered
waiter, two `set` calls with no intervening await trigger no
resumption, leave only the second byte in the one-byte slot, and the
next `await_resume` observes exactly that second byte while clearing
the slot; the first byte is lost silently. -/
theorem channel_overwrite_last_write_wins (c : DataStreamReader) (b1 b2 : Byte)
    (h : c.mAwaiter = false) :
    (c.set b1).2 = false ∧
    ((c.set b1).1.set b2).2 = false ∧
    ((c.set b1).1.set b2).1.mData = some b2 ∧
    awaitResume ((c.set b1).1.set b2).1.mData = some (b2, none) := by
  simp [DataStreamReader.set, awaitResume, h]

/-- Witness for C5: an empty channel with no waiter, pushed 1 then 2. -/
theorem channel_overwrite_last_write_wins_witness :
    (⟨none, false⟩ : DataStreamReader).mAwaiter = false ∧
    awaitResume (((⟨none, false⟩ : DataStreamReader).set 1).1.set 2).1.mData =
      some (2, none) :=
  ⟨rfl, (channel_overwrite_last_write_wins ⟨none, false⟩ 1 2 rfl).2.2.2⟩

/-- Claim C6: extract-latest idempotence — extraction returns the slot
value produced since the previous extraction and replaces the slot
with the default empty value, so a second extraction with no
intervening production returns the default empty value. -/
theorem extract_latest_idempotent (mValue : List Byte) :
    generatorExtract mValue = (mValue, []) ∧
    (generatorExtract (generatorExtract mValue).2).1 = [] := by
  simp [generatorExtract]

/-- Claim C7 describes the intended contract, but the code's failure
path diverges: `Allocate` wraps the throwing `new char[sz]` in a
`noexcept` function, so on heap exhaustion the process terminates at
the `noexcept` barrier — `Allocate` never returns null, construction
never completes (first two conjuncts, at the exhausted heap), the
`G{nullptr}` sentinel of `get_return_object_on_allocation_failure` is
unreachable (third conjunct), and every construction that does return
yields a valid handle, so no caller can ever observe an invalid handle
signalling allocation failure (fourth conjunct). -/
theorem allocation_failure_terminates :
    Allocate (fun _ => none) 64 = none ∧
    makeGenerator (fun _ => none) 64 = none ∧
    (∀ (heap : Nat → Option Nat) (sz : Nat),
      makeGenerator heap sz ≠ some get_return_object_on_allocation_failure) ∧
    (∀ (heap : Nat → Option Nat) (sz : Nat) (g : GenHandle),
      makeGenerator heap sz = some g → g.valid = true) := by
  refine ⟨rfl, rfl, ?_, ?_⟩
  · intro heap sz h
    simp only [makeGenerator, Allocate] at h
    cases hh : heap sz with
    | none => rw [hh] at h; simp at h
    | some p =>
      rw [hh] at h
      simp [get_return_object_on_allocation_failure] at h
  · intro heap sz g h
    simp only [makeGenerator, Allocate] at h
    cases hh : heap sz with
    | none => rw [hh] at h; simp at h
    | some p =>
      rw [hh] at h
      simp at h
      simp [← h, GenHandle.valid]

/-- Witness for the C7 divergence theorem at concrete inputs: a heap
returning address 7 gives a construction whose result is not the
invalid sentinel and whose handle is valid. -/
theorem allocation_failure_terminates_witness :
    makeGenerator (fun _ => some 7) 64 ≠
      some get_return_object_on_allocation_failure ∧
    (makeGenerator (fun _ => some 7) 64 = some ⟨some 7⟩ ∧
      (⟨some 7⟩ : GenHandle).valid = true) :=
  ⟨allocation_failure_terminates.2.2.1 (fun _ => some 7) 64,
    rfl, allocation_failure_terminates.2.2.2 (fun _ => some 7) 64 ⟨some 7⟩ rfl⟩

/-- Counterexample to C8 as stated: in the source the protocol
constants are the file-scope values ESC = H = 72 and SOF = 0x10 = 16,
and `Parse` — whose only parameter is the stream — recognizes no frame
delimited by any other byte pair: on the (5,6)-delimited frame
`5, 6, 65, 5, 6` the program's parser emits nothing, while the same
transition function instantiated at 5 and 6 emits the frame `65`. -/
theorem protocol_constants_counterexample :
    ESC = 72 ∧ SOF = 16 ∧
    (Parse .idle [5, 6, 65, 5, 6]).2 = [] ∧
    (run 5 6 .idle [5, 6, 65, 5, 6]).2 = [[65]] := by
  decide

/-- Claim C8 amended: the source hard-codes ESCAPE = H and
FRAME-MARKER = 0x10 as file-scope constants rather than construction
parameters (`Parse` is exactly the fixed instantiation), but the
transition function depends on them only through equality tests, so
for every choice of two distinct byte values the same machine
instantiated at those values is a parser recognizing frames delimited
by them. -/
theorem protocol_constants_amended :
    (∀ (s : PState) (bs : List Byte), Parse s bs = run 72 16 s bs) ∧
    (∀ esc sof : Byte, esc ≠ sof → ∀ content : List Byte,
      run esc sof .idle (encodeFrame esc sof content) = (.idle, [content])) :=
  ⟨fun _ _ => rfl, fun _ _ hne content => encodeFrame_run hne content⟩

/-- Witness for the amended C8: delimiters 5 and 6 give a working
parser for (5,6)-framed content, content bytes including a literal 5. -/
theorem protocol_constants_amended_witness :
    (5 : Byte) ≠ 6 ∧
    run 5 6 .idle (encodeFrame 5 6 [65, 5]) = (.idle, [[65, 5]]) :=
  ⟨by decide, protocol_constants_amended.2 5 6 (by decide) [65, 5]⟩

/-- Claim C9: empty frames are unobservable through extraction — a
start pair immediately followed by an end pair makes the parser yield
the empty frame, but the driver loop of `main`, which delivers a frame
only when the extracted string has non-zero length, delivers nothing;
in general any step yielding an empty frame leads to an empty
extraction, identical to `generatorExtract` of an untouched default
slot. -/
theorem empty_frame_unobservable :
    (run ESC SOF .idle [ESC, SOF, ESC, SOF]).2 = [[]] ∧
    (driveRun ESC SOF ⟨.idle, []⟩ [ESC, SOF, ESC, SOF]).2 = [] ∧
    (∀ (st : DriverState) (b : Byte),
      (parseStep ESC SOF st.ps b).2 = some [] →
      (driveByte ESC SOF st b).2 = []) ∧
    generatorExtract [] = ([], []) := by
  refine ⟨by decide, by decide, ?_, rfl⟩
  intro st b h
  simp [driveByte, generatorExtract, h]

/-- Witness for C9: completing an empty frame delivers nothing through
the driver. -/
theorem empty_frame_unobservable_witness :
    (parseStep ESC SOF (PState.inFrameEsc []) SOF).2 = some [] ∧
    (driveByte ESC SOF ⟨PState.inFrameEsc [], []⟩ SOF).2 = [] :=
  ⟨by decide,
    empty_frame_unobservable.2.2.1 ⟨PState.inFrameEsc [], []⟩ SOF (by decide)⟩

/-- Claim C10: the assertion in `await_resume` never fires — on a push
to the suspended parser the slot is filled before the awaiter is
resumed, so the resumed `await_resume` always finds a byte (and
returns it, clearing the slot); and on the no-suspend fast path,
`await_ready` returning true means the slot holds a byte, so
`await_resume` succeeds there too. -/
theorem await_resume_assertion_holds :
    (∀ (ps : PState) (b : Byte), (sysPush ESC SOF ps b).isSome = true) ∧
    (∀ mData : Option Byte, awaitReady mData = true →
      (awaitResume mData).isSome = true) := by
  constructor
  · intro ps b
    simp [sysPush, awaitResume]
  · intro d h
    cases d with
    | some b => simp [awaitResume]
    | none => simp [awaitReady] at h

/-- Witness for C10: the fast path with the byte 7 pending. -/
theorem await_resume_assertion_holds_witness :
    awaitReady (some 7) = true ∧ (awaitResume (some 7)).isSome = true :=
  ⟨by decide, await_resume_assertion_holds.2 (some 7) (by decide)⟩

end FrameCoro
